import Mathlib

/-!
# Verification of the folder-enforcer rules engine

A shallow embedding of `src/engine.py` from the `folder-enforcer`
repository.  Python strings are modelled as Lean `String` (a structure
holding a `List Char`); the Python regular-expression character classes
`\w` and `\s` are modelled by their ASCII parts, matching the engine's
intended use on ASCII rule files.  Each definition mirrors the source
function of the same name; the `*Core` variants return a structured
result which the `render*` functions turn into the exact strings the
Python code builds, so that `suggest`/`validate` remain string-valued
as in the source.
-/

/-! ## Character classes (ASCII models of Python `\s`, `\w`) -/

/-- Model of Python whitespace (`str.strip`, regex `\s`), ASCII part. -/
def pyIsSpace (c : Char) : Bool :=
  c = ' ' || c = '\t' || c = '\n' || c = '\r' || c = '\x0b' || c = '\x0c'

/-- Model of the regex class `\w` (word character), ASCII part. -/
def isWordChar (c : Char) : Bool :=
  c.isAlphanum || c = '_'

/-- Characters kept by `slugify`'s removal step: `[^\w\s.\-]` deleted. -/
def keepChar (c : Char) : Bool :=
  isWordChar c || pyIsSpace c || c = '.' || c = '-'

/-- Characters collapsed to a hyphen by `slugify`: the class `[\s_]`. -/
def isSpaceU (c : Char) : Bool :=
  pyIsSpace c || c = '_'

/-- The hyphen character, as a Bool predicate. -/
def isHyphen (c : Char) : Bool :=
  c = '-'

/-! ## Generic string helpers -/

/-- Remove leading and trailing characters satisfying `p`
(model of Python `str.strip` / `str.strip("-")` on char lists). -/
def stripWhile (p : Char → Bool) (l : List Char) : List Char :=
  ((l.dropWhile p).reverse.dropWhile p).reverse

/-- Model of Python `str.strip()` (whitespace strip). -/
def pyStrip (s : String) : String :=
  ⟨stripWhile pyIsSpace s.data⟩

/-- Model of Python `str.lower()` (ASCII case folding). -/
def pyLower (s : String) : String :=
  ⟨s.data.map Char.toLower⟩

/-- Model of Python `str.startswith`. -/
def strStartsWith (s pre : String) : Bool :=
  pre.data.isPrefixOf s.data

/-- Model of Python `str.rstrip("/")`: drop all trailing slashes. -/
def rstripSlash (s : String) : String :=
  ⟨(s.data.reverse.dropWhile (fun c => c = '/')).reverse⟩

/-- Split a char list at the first occurrence of `sep` (a non-empty
separator); `none` when `sep` does not occur.  Models the combination
of Python `sep in s` and `s.split(sep, 1)`. -/
def splitFirst (sep : List Char) : List Char → Option (List Char × List Char)
  | [] => none
  | c :: rest =>
    if sep.isPrefixOf (c :: rest) then some ([], (c :: rest).drop sep.length)
    else
      match splitFirst sep rest with
      | some (l, r) => some (c :: l, r)
      | none => none

/-- Model of Python `str.split(sep)` for a one-character separator. -/
def splitOnChar (sep : Char) : List Char → List (List Char)
  | [] => [[]]
  | c :: rest =>
    if c = sep then [] :: splitOnChar sep rest
    else
      match splitOnChar sep rest with
      | h :: t => (c :: h) :: t
      | [] => [[c]]

/-- Is `c` one of Python's `str.splitlines` line-break characters? -/
def isLineBreakChar (c : Char) : Bool :=
  c = '\n' || c = '\r' || c = '\x0b' || c = '\x0c' ||
  c = '\x1c' || c = '\x1d' || c = '\x1e' || c = '\u0085' ||
  c = '\u2028' || c = '\u2029'

/-- Worker for `splitLines`; `acc` is the reversed current line. -/
def splitLinesAux : List Char → List Char → List String
  | acc, [] => if acc.isEmpty then [] else [⟨acc.reverse⟩]
  | acc, '\r' :: '\n' :: rest => ⟨acc.reverse⟩ :: splitLinesAux [] rest
  | acc, c :: rest =>
    if isLineBreakChar c then ⟨acc.reverse⟩ :: splitLinesAux [] rest
    else splitLinesAux (c :: acc) rest

/-- Model of Python `str.splitlines()`. -/
def splitLines (s : String) : List String :=
  splitLinesAux [] s.data

/-! ## Data model (`PatternRule`, `FolderRules`) -/

/-- One `pattern:` rule: glob patterns and a target folder. -/
structure PatternRule where
  globs : List String
  target : String
deriving DecidableEq

/-- The parsed ruleset: allowed categories, pattern rules, raw text. -/
structure FolderRules where
  allowed : List String
  patterns : List PatternRule
  raw : String
deriving DecidableEq

/-! ## Rule parser (`parse_rules`) -/

/-- One iteration of the `parse_rules` loop over a raw line: skip
blank and comment lines, record a `pattern:` line when it has the
` -> ` separator (silently dropping it otherwise), and record any
other line as an allowed category. -/
def parseLine (acc : List String × List PatternRule) (rawLine : String) :
    List String × List PatternRule :=
  let line := pyStrip rawLine
  if line = "" then acc
  else if strStartsWith line "#" then acc
  else if strStartsWith line "pattern:" then
    match splitFirst " -> ".data (line.data.drop 8) with
    | none => acc
    | some (globsStr, target) =>
      let globs := (splitOnChar '|' globsStr).filterMap (fun g =>
        let g' := stripWhile pyIsSpace g
        if g'.isEmpty then none else some (⟨g'.map Char.toLower⟩ : String))
      (acc.1, acc.2 ++ [⟨globs, ⟨stripWhile pyIsSpace target⟩⟩])
  else (acc.1 ++ [line], acc.2)

/-- Model of `parse_rules`: fold the line parser over the lines of the
input and retain the raw text verbatim. -/
def parse_rules (content : String) : FolderRules :=
  let acc := (splitLines content).foldl parseLine ([], [])
  ⟨acc.1, acc.2, content⟩

/-! ## Slug and extension normalizer (`slugify`, `extension_for`) -/

/-- Replace each maximal run of characters satisfying `p` by the single
character `rep` (model of `re.sub(cls ++ "+", rep, s)`).  The Bool
argument records whether the previous character was inside a run. -/
def squashRuns (p : Char → Bool) (rep : Char) : Bool → List Char → List Char
  | _, [] => []
  | inRun, c :: cs =>
    if p c then
      if inRun then squashRuns p rep true cs
      else rep :: squashRuns p rep true cs
    else c :: squashRuns p rep false cs

/-- The `slugify` pipeline on char lists, before the empty fallback:
lower-case, strip, delete `[^\w\s.\-]`, collapse `[\s_]+` to `-`,
collapse `-+` to `-`, strip hyphens. -/
def slugChars (l : List Char) : List Char :=
  stripWhile isHyphen
    (squashRuns isHyphen '-' false
      (squashRuns isSpaceU '-' false
        ((stripWhile pyIsSpace (l.map Char.toLower)).filter keepChar)))

/-- Model of `slugify`: the pipeline with the `"untitled"` fallback. -/
def slugify (text : String) : String :=
  let t := slugChars text.data
  if t.isEmpty then "untitled" else ⟨t⟩

/-- The fixed file-type lookup table `ext_map`, in source order. -/
def ext_map : List (String × String) :=
  [("markdown", ".md"), ("md", ".md"), ("pdf", ".pdf"), ("image", ".png"),
   ("code", ""), ("python", ".py"), ("javascript", ".js"),
   ("typescript", ".ts"), ("json", ".json"), ("yaml", ".yaml"),
   ("csv", ".csv"), ("html", ".html"), ("css", ".css"),
   ("folder", ""), ("file", "")]

/-- First-match association lookup (model of Python dict `.get`). -/
def lookupExt : List (String × String) → String → Option String
  | [], _ => none
  | (k, v) :: rest, key => if key = k then some v else lookupExt rest key

/-- The normalized tag `file_type.lower().strip()`. -/
def normTag (file_type : String) : String :=
  ⟨stripWhile pyIsSpace (file_type.data.map Char.toLower)⟩

/-- Model of `extension_for`. -/
def extension_for (file_type : String) : String :=
  let ft := normTag file_type
  if strStartsWith ft "." then ft
  else
    match lookupExt ext_map ft with
    | some e => e
    | none => ""

/-! ## Glob matching (model of `fnmatch.fnmatch` on POSIX) -/

/-- Scan a bracket-expression body for its closing `]`, returning the
body and the remainder after the `]` (the scan that `fnmatch.translate`
performs once a leading `!` and a leading `]` have been passed). -/
def scanClose : List Char → Option (List Char × List Char)
  | [] => none
  | ']' :: rest => some ([], rest)
  | c :: rest =>
    match scanClose rest with
    | some (body, after) => some (c :: body, after)
    | none => none

/-- Split the characters after a `[` into (negated?, body, rest),
following `fnmatch.translate`: an initial `!` negates, an initial `]`
(after the optional `!`) is part of the body, and when no closing `]`
exists the `[` is treated as a literal (`none`). -/
def splitBracket (p : List Char) : Option (Bool × List Char × List Char) :=
  match p with
  | '!' :: ']' :: r =>
    match scanClose r with
    | some (body, after) => some (true, ']' :: body, after)
    | none => none
  | '!' :: r =>
    match scanClose r with
    | some (body, after) => some (true, body, after)
    | none => none
  | ']' :: r =>
    match scanClose r with
    | some (body, after) => some (false, ']' :: body, after)
    | none => none
  | r =>
    match scanClose r with
    | some (body, after) => some (false, body, after)
    | none => none

/-- Membership of a character in a bracket-expression body, with `a-b`
ranges (an empty range `a-b` with `a > b` matches nothing, matching the
empty-range removal in `fnmatch.translate`). -/
def inBracket (c : Char) : List Char → Bool
  | a :: '-' :: b :: rest =>
    (decide (a.toNat ≤ c.toNat) && decide (c.toNat ≤ b.toNat)) || inBracket c rest
  | a :: rest => c = a || inBracket c rest
  | [] => false

/-- A token of a compiled glob pattern. -/
inductive GlobTok where
  | star : GlobTok
  | qmark : GlobTok
  | lit : Char → GlobTok
  | cls : Bool → List Char → GlobTok
deriving DecidableEq

/-- Fuelled tokenizer for glob patterns (the fuel, initialized to the
pattern length, only bounds the recursion over the remainder after a
bracket expression and is never exhausted on the initial call). -/
def compileAux : Nat → List Char → List GlobTok
  | _, [] => []
  | 0, _ :: _ => []
  | fuel + 1, '*' :: p => .star :: compileAux fuel p
  | fuel + 1, '?' :: p => .qmark :: compileAux fuel p
  | fuel + 1, '[' :: p =>
    match splitBracket p with
    | some (neg, body, rest) => .cls neg body :: compileAux fuel rest
    | none => .lit '[' :: compileAux fuel p
  | fuel + 1, c :: p => .lit c :: compileAux fuel p

/-- Compile a glob pattern into tokens (model of `fnmatch.translate`). -/
def compileGlob (pat : List Char) : List GlobTok :=
  compileAux pat.length pat

/-- Match a compiled glob against a whole string: `star` matches any
run of characters (tried on every suffix), `qmark` any one character,
`lit` one equal character, `cls` one character by bracket membership. -/
def matchToks : List GlobTok → List Char → Bool
  | [], s => s.isEmpty
  | .star :: ts, s => s.tails.any (fun s' => matchToks ts s')
  | .qmark :: ts, s =>
    match s with
    | [] => false
    | _ :: s' => matchToks ts s'
  | .lit c :: ts, s =>
    match s with
    | [] => false
    | d :: s' => c = d && matchToks ts s'
  | .cls neg body :: ts, s =>
    match s with
    | [] => false
    | c :: s' => (inBracket c body != neg) && matchToks ts s'

/-- Model of `fnmatch.fnmatch(name, pat)` on POSIX (where `normcase`
is the identity): whole-string glob match. -/
def fnmatchB (name pat : String) : Bool :=
  matchToks (compileGlob pat.data) name.data

/-! ## Word-boundary search (model of `re.search(r"\b" + re.escape(pat) + r"\b", s)`) -/

/-- Is the optional character a word character (`none` = outside the
string, which counts as non-word for `\b`)? -/
def optIsWord : Option Char → Bool
  | some c => isWordChar c
  | none => false

/-- Does the literal `pat` occur somewhere in `s` with a `\b` boundary
on each side?  `prev` is the character just before the current suffix. -/
def wbSearchAux (pat : List Char) : Option Char → List Char → Bool
  | prev, s =>
    (pat.isPrefixOf s && (optIsWord prev != optIsWord pat.head?) &&
      (optIsWord pat.getLast? != optIsWord (s.drop pat.length).head?)) ||
    match s with
    | [] => false
    | c :: s' => wbSearchAux pat (some c) s'

/-- Model of `re.search` for the pattern `\b<literal>\b`. -/
def wordBoundarySearch (hay pat : String) : Bool :=
  wbSearchAux pat.data none hay.data

/-! ## Category filter and matcher (`_categories`, `suggest`) -/

/-- Model of `_categories`: the visible (not dot-prefixed) entries. -/
def visibleCategories (rules : FolderRules) : List String :=
  rules.allowed.filter (fun f => !(strStartsWith f "."))

/-- The filename `{slug}{ext}` computed once by `suggest`. -/
def computedFilename (description file_type : String) : String :=
  let ext := extension_for file_type
  let slug := slugify description
  if ext = "" then slug else slug ++ ext

/-- Tier 1 inner loop: the first glob in `globs` matching `descLower`. -/
def findGlobHit (descLower : String) : List String → Option String
  | [] => none
  | g :: gs => if fnmatchB descLower g then some g else findGlobHit descLower gs

/-- Tier 1 outer loop: the first (glob, target) over the pattern rules
in declared order whose glob matches `descLower`. -/
def findPatternHit (descLower : String) : List PatternRule → Option (String × String)
  | [] => none
  | r :: rs =>
    match findGlobHit descLower r.globs with
    | some g => some (g, r.target)
    | none => findPatternHit descLower rs

/-- Tier 2 loop: the first category whose lower-cased name occurs in
`descLower` as a whole word. -/
def findCategoryHit (descLower : String) : List String → Option String
  | [] => none
  | f :: fs =>
    if wordBoundarySearch descLower (pyLower f) then some f
    else findCategoryHit descLower fs

/-- The structured outcome of `suggest`: which tier fired and with
which data (the fields are exactly what the result string displays). -/
inductive Suggestion where
  | patternHit : String → String → String → Suggestion
  | categoryHit : String → String → Suggestion
  | noMatch : String → List String → String → Suggestion
deriving DecidableEq

/-- The suggested path of a structured outcome, as the code builds it:
`{target.rstrip("/")}/{filename}` for tier 1, `{folder}/{filename}` for
tier 2, none for the fallback tier. -/
def suggestionPath : Suggestion → Option String
  | .patternHit _ target filename => some (rstripSlash target ++ "/" ++ filename)
  | .categoryHit folder filename => some (folder ++ "/" ++ filename)
  | .noMatch _ _ _ => none

/-- The three-tier decision procedure of `suggest`. -/
def suggestCore (rules : FolderRules) (description : String)
    (file_type : String) : Suggestion :=
  let descLower := pyLower description
  let filename := computedFilename description file_type
  let categories := visibleCategories rules
  match findPatternHit descLower rules.patterns with
  | some (glob, target) => .patternHit glob target filename
  | none =>
    match findCategoryHit descLower categories with
    | some folder => .categoryHit folder filename
    | none => .noMatch description categories filename

/-- Render a structured outcome as the exact string `suggest` returns. -/
def renderSuggestion : Suggestion → String
  | .patternHit glob target filename =>
    "Suggested: " ++ rstripSlash target ++ "/" ++ filename ++
    "\nReason: Matched pattern " ++ glob ++ " -> " ++ target ++
    "\nCategory: " ++ rstripSlash target
  | .categoryHit folder filename =>
    "Suggested: " ++ folder ++ "/" ++ filename ++
    "\nReason: Description contains category name '" ++ folder ++ "'" ++
    "\nCategory: " ++ folder
  | .noMatch description categories filename =>
    "No pattern match for: " ++ description ++
    "\nAvailable categories: " ++ String.intercalate ", " categories ++
    "\nSuggested filename: " ++ filename ++
    "\nPick the best category and use: <category>/" ++ filename

/-- Model of `suggest`: the rendered three-tier outcome. -/
def suggest (rules : FolderRules) (description : String)
    (file_type : String := "file") : String :=
  renderSuggestion (suggestCore rules description file_type)

/-! ## Path validator (`validate`) -/

/-- Model of `pathlib.Path(path).parts` for relative POSIX paths:
split on `/`, dropping empty segments and `.` segments. -/
def pathParts (path : String) : List String :=
  ((splitOnChar '/' path.data).map (fun l => (⟨l⟩ : String))).filter
    (fun seg => !(seg == "" || seg == "."))

/-- The structured outcome of `validate`. -/
inductive Validation where
  | invalidPathForm : Validation
  | invalidEmpty : Validation
  | validTop : String → String → Validation
  | invalidTop : String → List String → Suggestion → Validation
deriving DecidableEq

/-- The decision procedure of `validate`: reject absolute paths and
`..` segments, reject empty paths, accept when the first segment is in
`allowed` (unfiltered), otherwise report the visible categories and a
suggestion for the space-joined segments. -/
def validateCore (rules : FolderRules) (path : String) : Validation :=
  if strStartsWith path "/" = true ∨ ".." ∈ pathParts path then .invalidPathForm
  else
    match pathParts path with
    | [] => .invalidEmpty
    | top :: rest =>
      if top ∈ rules.allowed then .validTop path top
      else
        .invalidTop top (visibleCategories rules)
          (suggestCore rules (String.intercalate " " (top :: rest)) "file")

/-- Render a structured outcome as the exact string `validate` returns. -/
def renderValidation : Validation → String
  | .invalidPathForm =>
    "Invalid: only relative paths are accepted (no absolute paths or ..)"
  | .invalidEmpty => "Invalid: empty path"
  | .validTop path top =>
    "Valid: " ++ path ++ " is in allowed category '" ++ top ++ "/'"
  | .invalidTop top categories inner =>
    "Invalid: '" ++ top ++ "/' is not an allowed top-level folder." ++
    "\nAllowed: " ++ String.intercalate ", " categories ++
    "\n\n" ++ renderSuggestion inner

/-- Model of `validate`: the rendered outcome. -/
def validate (rules : FolderRules) (path : String) : String :=
  renderValidation (validateCore rules path)

/-! ## Helper lemmas -/

/-- A string equals `""` exactly when its char list is empty. -/
theorem strMk_ne_empty {l : List Char} (h : l ≠ []) : (⟨l⟩ : String) ≠ "" := by
  intro he
  exact h (congrArg String.data he)

/-- A `pattern:`-prefixed stripped line is non-blank and no comment. -/
theorem startsWith_pattern_facts {s : String}
    (h : strStartsWith s "pattern:" = true) :
    s ≠ "" ∧ strStartsWith s "#" = false := by
  have hp : "pattern:".data <+: s.data := by
    have := h
    unfold strStartsWith at this
    exact List.isPrefixOf_iff_prefix.mp this
  obtain ⟨t, ht⟩ := hp
  have hd : s.data = 'p' :: ("attern:".data ++ t) := by rw [← ht]; rfl
  constructor
  · intro he
    rw [he] at hd
    exact absurd hd (by simp [String.data])
  · unfold strStartsWith
    rw [hd]
    simp [List.isPrefixOf]

/-! ## Claim theorems: parser (C8, C5, C6) -/

/-- C8: round-trip on the raw field — for every input string `text`,
`parse_rules text` retains the original ruleset text verbatim in its
`raw` field. -/
theorem parse_raw_roundtrip : ∀ text : String, (parse_rules text).raw = text :=
  fun _ => rfl

/-- C5: parsing is total — for every input string (including `""`)
`parse_rules` returns a `FolderRules` value, and a stripped line that
begins with `pattern:` but lacks the ` -> ` separator leaves the parse
state unchanged: it is silently dropped, neither failing nor being
recorded as a category or a pattern. -/
theorem parse_total_malformed_dropped :
    (∀ text : String, ∃ rs : FolderRules, parse_rules text = rs) ∧
    parse_rules "" = ⟨[], [], ""⟩ ∧
    (∀ (acc : List String × List PatternRule) (line : String),
      strStartsWith (pyStrip line) "pattern:" = true →
      splitFirst " -> ".data ((pyStrip line).data.drop 8) = none →
      parseLine acc line = acc) := by
  refine ⟨fun text => ⟨parse_rules text, rfl⟩, by decide, ?_⟩
  intro acc line h1 h2
  obtain ⟨hne, hhash⟩ := startsWith_pattern_facts h1
  simp [parseLine, hne, hhash, h1, h2]

/-- Witness for C5 at a concrete malformed pattern line. -/
theorem parse_total_malformed_dropped_wit :
    parseLine (["clients"], []) "pattern:*foo* no arrow here" = (["clients"], []) :=
  parse_total_malformed_dropped.2.2 _ _ (by decide) (by decide)

/-- Counterexample for C6: a pattern line whose glob section strips to
nothing produces a rule whose `globs` list is empty — the parse-time
invariant claimed by the spec fails on this input. -/
theorem parse_rule_globs_cex :
    (parse_rules "pattern: -> misc").patterns = [⟨[], "misc"⟩] ∧
    ¬(∀ r ∈ (parse_rules "pattern: -> misc").patterns, r.globs ≠ []) := by
  decide

/-- Each rule added by `parseLine` has only non-empty glob strings. -/
theorem parseLine_globs_sound {acc : List String × List PatternRule}
    {line : String} {r : PatternRule} (hr : r ∈ (parseLine acc line).2) :
    r ∈ acc.2 ∨ ∀ g ∈ r.globs, g ≠ "" := by
  by_cases h1 : pyStrip line = ""
  · simp [parseLine, h1] at hr
    exact Or.inl hr
  · by_cases h2 : strStartsWith (pyStrip line) "#" = true
    · simp [parseLine, h1, h2] at hr
      exact Or.inl hr
    · by_cases h3 : strStartsWith (pyStrip line) "pattern:" = true
      · rcases hsf : splitFirst " -> ".data ((pyStrip line).data.drop 8) with
          _ | ⟨globsStr, target⟩
        · simp [parseLine, h1, h2, h3, hsf] at hr
          exact Or.inl hr
        · simp [parseLine, h1, h2, h3, hsf] at hr
          rcases hr with hr | hr
          · exact Or.inl hr
          · right
            intro g hg
            rw [hr] at hg
            simp only [List.mem_filterMap] at hg
            obtain ⟨a, _, ha⟩ := hg
            by_cases he : stripWhile pyIsSpace a = []
            · simp [he] at ha
            · simp [he] at ha
              have hne : (stripWhile pyIsSpace a).map Char.toLower ≠ [] := by
                intro hmap
                exact he (by simpa using congrArg List.length hmap)
              rw [← ha]
              exact strMk_ne_empty hne
      · simp [parseLine, h1, h2, h3] at hr
        exact Or.inl hr

/-- Folding the line parser preserves non-emptiness of glob strings. -/
theorem foldl_parseLine_globs :
    ∀ (lines : List String) (acc : List String × List PatternRule),
      (∀ r ∈ acc.2, ∀ g ∈ r.globs, g ≠ "") →
      ∀ r ∈ (lines.foldl parseLine acc).2, ∀ g ∈ r.globs, g ≠ "" := by
  intro lines
  induction lines with
  | nil => intro acc hacc; simpa using hacc
  | cons l ls ih =>
    intro acc hacc r hr
    refine ih (parseLine acc l) ?_ r (by simpa using hr)
    intro r' hr'
    rcases parseLine_globs_sound hr' with h | h
    · exact hacc r' h
    · exact h

/-- C6 (amended): every glob string stored in a parsed pattern rule is
non-empty (empty globs are dropped at parse time), but a rule itself
may end up with an empty `globs` list when the whole glob section is
blank. -/
theorem parse_globs_nonempty :
    ∀ (text : String) (r : PatternRule) (g : String),
      r ∈ (parse_rules text).patterns → g ∈ r.globs → g ≠ "" := by
  intro text r g hr hg
  have h := foldl_parseLine_globs (splitLines text) ([], []) (by simp) r
  exact h (by simpa [parse_rules] using hr) g hg

/-- Witness for the amended C6 at a concrete parsed ruleset. -/
theorem parse_globs_nonempty_wit : ("a" : String) ≠ "" :=
  parse_globs_nonempty "pattern:a -> t" ⟨["a"], "t"⟩ "a" (by decide) (by decide)

/-! ## Claim theorems: validator (C2, C4) -/

/-- C2: for every ruleset and every path that starts with `/` or has a
`..` segment, `validate` rejects with the dedicated path-form result —
the constant `invalidPathForm` outcome, rendered as the fixed string —
without consulting the ruleset. -/
theorem validate_rejects_nonrelative (rules : FolderRules) (path : String)
    (h : strStartsWith path "/" = true ∨ ".." ∈ pathParts path) :
    validateCore rules path = Validation.invalidPathForm ∧
    validate rules path =
      "Invalid: only relative paths are accepted (no absolute paths or ..)" := by
  have h1 : validateCore rules path = Validation.invalidPathForm := by
    unfold validateCore
    rw [if_pos h]
  exact ⟨h1, by rw [validate, h1]; rfl⟩

/-- Witness for C2: an absolute path whose first segment is allowed. -/
theorem validate_rejects_nonrelative_wit :
    validateCore ⟨["etc"], [], "etc"⟩ "/etc/passwd" = Validation.invalidPathForm :=
  (validate_rejects_nonrelative _ _ (Or.inl (by decide))).1

/-- C4: for a non-empty relative path with no `..` segment, `validate`
accepts naming the first segment exactly when that segment is
(case-sensitively) an entry of `allowed`; dot-prefixed entries are
valid targets although they are excluded from the visible listing. -/
theorem validate_top_membership :
    (∀ (rules : FolderRules) (path top : String) (rest : List String),
      strStartsWith path "/" = false →
      ".." ∉ pathParts path →
      pathParts path = top :: rest →
      (validateCore rules path = Validation.validTop path top ↔
        top ∈ rules.allowed)) ∧
    (∀ (rules : FolderRules) (e : String),
      strStartsWith e "." = true → e ∉ visibleCategories rules) := by
  constructor
  · intro rules path top rest h1 h2 h3
    have hcond : ¬(strStartsWith path "/" = true ∨ ".." ∈ pathParts path) := by
      rw [h1]
      simp [h2]
    unfold validateCore
    rw [if_neg hcond, h3]
    by_cases hm : top ∈ rules.allowed
    · simp [hm]
    · simp [hm]
  · intro rules e h hmem
    rw [visibleCategories, List.mem_filter] at hmem
    rw [h] at hmem
    simp at hmem

/-- Witness for C4: a hidden (dot-prefixed) category validates. -/
theorem validate_top_membership_wit :
    validateCore ⟨[".hidden"], [], ""⟩ ".hidden/docs" =
      Validation.validTop ".hidden/docs" ".hidden" :=
  (validate_top_membership.1 _ _ ".hidden" ["docs"]
    (by decide) (by decide) (by decide)).mpr (by decide)

/-! ## Claim theorems: extensions (C7) and bracket globs (C10) -/

/-- Counterexample for C7: the code does not return a dot-prefixed tag
unchanged — it returns the lower-cased, stripped tag. -/
theorem extension_for_cex :
    extension_for ".CSV" ≠ ".CSV" ∧ extension_for ".CSV" = ".csv" := by
  decide

/-- C7 (amended): when the lower-cased, stripped tag starts with `.`,
`extension_for` returns that normalized tag (not the original); when
the normalized tag does not start with `.` and is not a key of
`ext_map`, it returns the empty string. -/
theorem extension_for_normalized (file_type : String) :
    (strStartsWith (normTag file_type) "." = true →
      extension_for file_type = normTag file_type) ∧
    (strStartsWith (normTag file_type) "." = false →
      lookupExt ext_map (normTag file_type) = none →
      extension_for file_type = "") := by
  constructor
  · intro h
    simp [extension_for, h]
  · intro h1 h2
    simp [extension_for, h1, h2]

/-- Witness for the amended C7 at two concrete tags. -/
theorem extension_for_normalized_wit :
    extension_for ".CSV" = ".csv" ∧ extension_for "weird" = "" :=
  ⟨((extension_for_normalized ".CSV").1 (by decide)).trans (by decide),
    (extension_for_normalized "weird").2 (by decide) (by decide)⟩

/-- C10: glob matching follows full `fnmatch` semantics, interpreting
`[seq]` character classes: on the ruleset `pattern:[ab]x -> misc` the
description `ax` gets a pattern-tier hit from the glob `[ab]x`, which
contains neither `*` nor `?` and is not textually equal to the
lower-cased description. -/
theorem fnmatch_bracket_class :
    suggestCore (parse_rules "pattern:[ab]x -> misc") "ax" "file" =
      Suggestion.patternHit "[ab]x" "misc" "ax" ∧
    ("[ab]x" : String).data.all (fun c => !(c = '*' || c = '?')) = true ∧
    ("[ab]x" : String) ≠ "ax" := by
  decide

/-! ## First-match characterizations of the matcher loops -/

/-- If the tier-1 inner loop finds no glob, none of them matched. -/
theorem findGlobHit_eq_none {d : String} {gs : List String}
    (h : findGlobHit d gs = none) : ∀ g ∈ gs, fnmatchB d g = false := by
  induction gs with
  | nil => simp
  | cons g₀ gs ih =>
    by_cases hg : fnmatchB d g₀
    · simp [findGlobHit, hg] at h
    · intro g' hg'
      rcases List.mem_cons.mp hg' with rfl | hmem
      · simpa using hg
      · exact ih (by simpa [findGlobHit, hg] using h) g' hmem

/-- The tier-1 inner loop returns the first matching glob. -/
theorem findGlobHit_eq_some {d : String} {gs : List String} {g : String}
    (h : findGlobHit d gs = some g) :
    ∃ gs₁ gs₂, gs = gs₁ ++ g :: gs₂ ∧
      (∀ g' ∈ gs₁, fnmatchB d g' = false) ∧ fnmatchB d g = true := by
  induction gs with
  | nil => simp [findGlobHit] at h
  | cons g₀ gs ih =>
    by_cases hg : fnmatchB d g₀
    · have : g₀ = g := by simpa [findGlobHit, hg] using h
      subst this
      exact ⟨[], gs, rfl, by simp, hg⟩
    · have h' : findGlobHit d gs = some g := by simpa [findGlobHit, hg] using h
      obtain ⟨gs₁, gs₂, rfl, hall, hgm⟩ := ih h'
      refine ⟨g₀ :: gs₁, gs₂, rfl, ?_, hgm⟩
      intro g' hg'
      rcases List.mem_cons.mp hg' with rfl | hm
      · simpa using hg
      · exact hall g' hm

/-- If some glob matches, the tier-1 inner loop succeeds. -/
theorem findGlobHit_isSome_of {d : String} {gs : List String}
    (h : ∃ g ∈ gs, fnmatchB d g = true) : (findGlobHit d gs).isSome := by
  induction gs with
  | nil => simp at h
  | cons g₀ gs ih =>
    by_cases hg : fnmatchB d g₀
    · simp [findGlobHit, hg]
    · obtain ⟨g, hmem, hm⟩ := h
      rcases List.mem_cons.mp hmem with rfl | hmem'
      · exact absurd hm (by simpa using hg)
      · simpa [findGlobHit, hg] using ih ⟨g, hmem', hm⟩

/-- If the tier-1 outer loop finds no rule, no glob of any rule matched. -/
theorem findPatternHit_eq_none {d : String} {ps : List PatternRule}
    (h : findPatternHit d ps = none) :
    ∀ r ∈ ps, ∀ g ∈ r.globs, fnmatchB d g = false := by
  induction ps with
  | nil => simp
  | cons r₀ ps ih =>
    rcases hg : findGlobHit d r₀.globs with _ | g
    · intro r hr
      rcases List.mem_cons.mp hr with rfl | hmem
      · exact findGlobHit_eq_none hg
      · exact ih (by simpa [findPatternHit, hg] using h) r hmem
    · simp [findPatternHit, hg] at h

/-- If no glob of any rule matches, the tier-1 outer loop fails. -/
theorem findPatternHit_eq_none_of {d : String} {ps : List PatternRule}
    (h : ∀ r ∈ ps, ∀ g ∈ r.globs, fnmatchB d g = false) :
    findPatternHit d ps = none := by
  induction ps with
  | nil => rfl
  | cons r₀ ps ih =>
    rcases hg : findGlobHit d r₀.globs with _ | g
    · simpa [findPatternHit, hg] using
        ih (fun r hr => h r (List.mem_cons_of_mem _ hr))
    · obtain ⟨gs₁, gs₂, hsplit, _, hgm⟩ := findGlobHit_eq_some hg
      have : fnmatchB d g = false :=
        h r₀ (List.mem_cons_self _ _) g (by rw [hsplit]; simp)
      rw [this] at hgm
      cases hgm

/-- The tier-1 outer loop returns the lexicographically first match:
the first rule with a matching glob, and that rule's first match. -/
theorem findPatternHit_eq_some {d : String} {ps : List PatternRule}
    {g tgt : String} (h : findPatternHit d ps = some (g, tgt)) :
    ∃ ps₁ r ps₂, ps = ps₁ ++ r :: ps₂ ∧ r.target = tgt ∧
      (∃ gs₁ gs₂, r.globs = gs₁ ++ g :: gs₂ ∧
        (∀ g' ∈ gs₁, fnmatchB d g' = false) ∧ fnmatchB d g = true) ∧
      (∀ r' ∈ ps₁, ∀ g' ∈ r'.globs, fnmatchB d g' = false) := by
  induction ps with
  | nil => simp [findPatternHit] at h
  | cons r₀ ps ih =>
    rcases hg : findGlobHit d r₀.globs with _ | g'
    · have h' : findPatternHit d ps = some (g, tgt) := by
        simpa [findPatternHit, hg] using h
      obtain ⟨ps₁, r, ps₂, rfl, htgt, hglobs, hall⟩ := ih h'
      refine ⟨r₀ :: ps₁, r, ps₂, rfl, htgt, hglobs, ?_⟩
      intro r' hr'
      rcases List.mem_cons.mp hr' with rfl | hm
      · exact findGlobHit_eq_none hg
      · exact hall r' hm
    · have : g' = g ∧ r₀.target = tgt := by
        have := h
        simp [findPatternHit, hg] at this
        exact ⟨this.1, this.2⟩
      obtain ⟨rfl, htgt⟩ := this
      obtain ⟨gs₁, gs₂, hsplit, hall, hgm⟩ := findGlobHit_eq_some hg
      exact ⟨[], r₀, ps, rfl, htgt, ⟨gs₁, gs₂, hsplit, hall, hgm⟩, by simp⟩

/-- If some rule has a matching glob, the tier-1 outer loop succeeds. -/
theorem findPatternHit_isSome_of {d : String} {ps : List PatternRule}
    (h : ∃ r ∈ ps, ∃ g ∈ r.globs, fnmatchB d g = true) :
    (findPatternHit d ps).isSome := by
  induction ps with
  | nil => simp at h
  | cons r₀ ps ih =>
    rcases hg : findGlobHit d r₀.globs with _ | g'
    · obtain ⟨r, hmem, g, hgmem, hm⟩ := h
      rcases List.mem_cons.mp hmem with rfl | hmem'
      · have := findGlobHit_eq_none hg g hgmem
        rw [hm] at this
        cases this
      · simpa [findPatternHit, hg] using ih ⟨r, hmem', g, hgmem, hm⟩
    · simp [findPatternHit, hg]

/-- The tier-2 loop returns the first category with a word match. -/
theorem findCategoryHit_eq_some {d : String} {cs : List String} {c : String}
    (h : findCategoryHit d cs = some c) :
    ∃ cs₁ cs₂, cs = cs₁ ++ c :: cs₂ ∧
      (∀ c' ∈ cs₁, wordBoundarySearch d (pyLower c') = false) ∧
      wordBoundarySearch d (pyLower c) = true := by
  induction cs with
  | nil => simp [findCategoryHit] at h
  | cons c₀ cs ih =>
    by_cases hc : wordBoundarySearch d (pyLower c₀)
    · have : c₀ = c := by simpa [findCategoryHit, hc] using h
      subst this
      exact ⟨[], cs, rfl, by simp, hc⟩
    · have h' : findCategoryHit d cs = some c := by
        simpa [findCategoryHit, hc] using h
      obtain ⟨cs₁, cs₂, rfl, hall, hcm⟩ := ih h'
      refine ⟨c₀ :: cs₁, cs₂, rfl, ?_, hcm⟩
      intro c' hc'
      rcases List.mem_cons.mp hc' with rfl | hm
      · simpa using hc
      · exact hall c' hm

/-- If some category word-matches, the tier-2 loop succeeds. -/
theorem findCategoryHit_isSome_of {d : String} {cs : List String}
    (h : ∃ c ∈ cs, wordBoundarySearch d (pyLower c) = true) :
    (findCategoryHit d cs).isSome := by
  induction cs with
  | nil => simp at h
  | cons c₀ cs ih =>
    by_cases hc : wordBoundarySearch d (pyLower c₀)
    · simp [findCategoryHit, hc]
    · obtain ⟨c, hmem, hm⟩ := h
      rcases List.mem_cons.mp hmem with rfl | hmem'
      · exact absurd hm (by simpa using hc)
      · simpa [findCategoryHit, hc] using ih ⟨c, hmem', hm⟩

/-! ## Claim theorems: matcher tiers (C1, C3) -/

/-- C1: whenever some glob of some pattern rule matches the
lower-cased description, `suggest` returns a pattern-tier result whose
suggested path is the matching rule's target with trailing slashes
stripped, then `/`, then the computed filename; the rule and glob used
are the first, in declared order (rules outer, globs inner), that
match. -/
theorem suggest_pattern_tier (rules : FolderRules)
    (description file_type : String)
    (h : ∃ r ∈ rules.patterns, ∃ g ∈ r.globs,
      fnmatchB (pyLower description) g = true) :
    ∃ ps₁ r ps₂ gs₁ g gs₂,
      rules.patterns = ps₁ ++ r :: ps₂ ∧
      r.globs = gs₁ ++ g :: gs₂ ∧
      (∀ r' ∈ ps₁, ∀ g' ∈ r'.globs, fnmatchB (pyLower description) g' = false) ∧
      (∀ g' ∈ gs₁, fnmatchB (pyLower description) g' = false) ∧
      fnmatchB (pyLower description) g = true ∧
      suggestCore rules description file_type =
        Suggestion.patternHit g r.target (computedFilename description file_type) ∧
      suggestionPath (suggestCore rules description file_type) =
        some (rstripSlash r.target ++ "/" ++
          computedFilename description file_type) := by
  obtain ⟨⟨g, tgt⟩, heq⟩ :=
    Option.isSome_iff_exists.mp (findPatternHit_isSome_of h)
  obtain ⟨ps₁, r, ps₂, hps, htgt, ⟨gs₁, gs₂, hgs, hall1, hgm⟩, hall2⟩ :=
    findPatternHit_eq_some heq
  have hcore : suggestCore rules description file_type =
      Suggestion.patternHit g r.target (computedFilename description file_type) := by
    simp only [suggestCore, heq, htgt]
  exact ⟨ps₁, r, ps₂, gs₁, g, gs₂, hps, hgs, hall2, hall1, hgm, hcore,
    by rw [hcore]; rfl⟩

/-- Witness for C1 at a concrete ruleset and description. -/
theorem suggest_pattern_tier_wit :
    ∃ ps₁ r ps₂ gs₁ g gs₂,
      (parse_rules "pattern:*research* -> research/").patterns =
        ps₁ ++ r :: ps₂ ∧
      r.globs = gs₁ ++ g :: gs₂ ∧
      (∀ r' ∈ ps₁, ∀ g' ∈ r'.globs,
        fnmatchB (pyLower "desk research") g' = false) ∧
      (∀ g' ∈ gs₁, fnmatchB (pyLower "desk research") g' = false) ∧
      fnmatchB (pyLower "desk research") g = true ∧
      suggestCore (parse_rules "pattern:*research* -> research/")
          "desk research" "markdown" =
        Suggestion.patternHit g r.target
          (computedFilename "desk research" "markdown") ∧
      suggestionPath (suggestCore (parse_rules "pattern:*research* -> research/")
          "desk research" "markdown") =
        some (rstripSlash r.target ++ "/" ++
          computedFilename "desk research" "markdown") :=
  suggest_pattern_tier _ "desk research" "markdown"
    ⟨⟨["*research*"], "research/"⟩, by decide, "*research*", by decide, by decide⟩

/-- C3: when no pattern glob matches the lower-cased description and
some visible category name occurs in it as a whole word (case-
insensitive, word-boundary), `suggest` returns a category-tier result
with path `{category}/{filename}` for the first such category; an
embedded occurrence inside a larger word (such as `skills` inside
`upskills`) does not count as a match. -/
theorem suggest_category_tier :
    (∀ (rules : FolderRules) (description file_type : String),
      (∀ r ∈ rules.patterns, ∀ g ∈ r.globs,
        fnmatchB (pyLower description) g = false) →
      (∃ c ∈ visibleCategories rules,
        wordBoundarySearch (pyLower description) (pyLower c) = true) →
      ∃ cs₁ c cs₂,
        visibleCategories rules = cs₁ ++ c :: cs₂ ∧
        (∀ c' ∈ cs₁,
          wordBoundarySearch (pyLower description) (pyLower c') = false) ∧
        wordBoundarySearch (pyLower description) (pyLower c) = true ∧
        suggestCore rules description file_type =
          Suggestion.categoryHit c (computedFilename description file_type) ∧
        suggestionPath (suggestCore rules description file_type) =
          some (c ++ "/" ++ computedFilename description file_type)) ∧
    wordBoundarySearch (pyLower "upskills training") (pyLower "skills") = false := by
  constructor
  · intro rules description file_type hpat hcat
    have hnone : findPatternHit (pyLower description) rules.patterns = none :=
      findPatternHit_eq_none_of hpat
    obtain ⟨c, heq⟩ :=
      Option.isSome_iff_exists.mp (findCategoryHit_isSome_of hcat)
    obtain ⟨cs₁, cs₂, hcs, hall, hcm⟩ := findCategoryHit_eq_some heq
    have hcore : suggestCore rules description file_type =
        Suggestion.categoryHit c (computedFilename description file_type) := by
      simp only [suggestCore, hnone, heq]
    exact ⟨cs₁, c, cs₂, hcs, hall, hcm, hcore, by rw [hcore]; rfl⟩
  · decide

/-- Witness for C3 at a concrete ruleset and description. -/
theorem suggest_category_tier_wit :
    ∃ cs₁ c cs₂,
      visibleCategories (parse_rules "skills") = cs₁ ++ c :: cs₂ ∧
      (∀ c' ∈ cs₁,
        wordBoundarySearch (pyLower "skills overview") (pyLower c') = false) ∧
      wordBoundarySearch (pyLower "skills overview") (pyLower c) = true ∧
      suggestCore (parse_rules "skills") "skills overview" "markdown" =
        Suggestion.categoryHit c (computedFilename "skills overview" "markdown") ∧
      suggestionPath (suggestCore (parse_rules "skills")
          "skills overview" "markdown") =
        some (c ++ "/" ++ computedFilename "skills overview" "markdown") :=
  suggest_category_tier.1 (parse_rules "skills") "skills overview" "markdown"
    (by decide) ⟨"skills", by decide, by decide⟩

/-! ## Lemmas towards slug idempotence (C9) -/

/-- `Char.ofNat` of a valid codepoint has that codepoint. -/
theorem charToNat_ofNat {n : Nat} (h : n.isValidChar) :
    (Char.ofNat n).toNat = n := by
  unfold Char.ofNat
  rw [dif_pos h]
  rfl

/-- Unfolding of `Char.toLower`. -/
theorem toLower_def (c : Char) :
    c.toLower = if c.toNat ≥ 65 ∧ c.toNat ≤ 90 then Char.ofNat (c.toNat + 32) else c :=
  rfl

/-- ASCII lower-casing is idempotent. -/
theorem toLower_toLower (c : Char) : c.toLower.toLower = c.toLower := by
  by_cases h : c.toNat ≥ 65 ∧ c.toNat ≤ 90
  · have h2 : c.toLower.toNat = c.toNat + 32 := by
      rw [toLower_def, if_pos h, charToNat_ofNat (Or.inl (by omega))]
    rw [toLower_def c.toLower, if_neg (by rw [h2]; omega)]
  · rw [toLower_def c, if_neg h, toLower_def c, if_neg h]

/-- Stripping only removes characters. -/
theorem mem_stripWhile {p : Char → Bool} {l : List Char} {c : Char}
    (h : c ∈ stripWhile p l) : c ∈ l := by
  unfold stripWhile at h
  rw [List.mem_reverse] at h
  have h2 := (List.dropWhile_sublist (l := (l.dropWhile p).reverse) p).subset h
  rw [List.mem_reverse] at h2
  exact (List.dropWhile_sublist p).subset h2

/-- `dropWhile` is the identity when the head fails the predicate. -/
theorem dropWhile_eq_self_of_head {p : Char → Bool} {l : List Char}
    (h : ∀ c, l.head? = some c → p c = false) : l.dropWhile p = l := by
  cases l with
  | nil => rfl
  | cons a as =>
    have := h a rfl
    rw [List.dropWhile_cons_of_neg (by simp [this])]

/-- Stripping is the identity when neither end satisfies the predicate. -/
theorem stripWhile_eq_self_of_ends {p : Char → Bool} {l : List Char}
    (h1 : ∀ c, l.head? = some c → p c = false)
    (h2 : ∀ c, l.getLast? = some c → p c = false) : stripWhile p l = l := by
  unfold stripWhile
  rw [dropWhile_eq_self_of_head h1]
  rw [dropWhile_eq_self_of_head (by
    intro c hc
    rw [List.head?_reverse] at hc
    exact h2 c hc)]
  exact List.reverse_reverse l

/-- Stripping is the identity when no character satisfies the predicate. -/
theorem stripWhile_eq_self_of_all {p : Char → Bool} {l : List Char}
    (h : ∀ c ∈ l, p c = false) : stripWhile p l = l := by
  refine stripWhile_eq_self_of_ends ?_ ?_
  · intro c hc
    exact h c (List.mem_of_mem_head? (by rw [hc]; rfl))
  · intro c hc
    rw [List.getLast?_eq_head?_reverse] at hc
    have := List.mem_of_mem_head? (l := l.reverse) (by rw [hc]; rfl)
    exact h c (List.mem_reverse.mp this)

/-- The tail end of a stripped list fails the predicate. -/
theorem getLast?_stripWhile_not {p : Char → Bool} {l : List Char} {c : Char}
    (h : (stripWhile p l).getLast? = some c) : p c = false := by
  unfold stripWhile at h
  rw [List.getLast?_reverse] at h
  have h2 := List.head?_dropWhile_not p (l.dropWhile p).reverse
  rw [h] at h2
  simpa using h2

/-- The head of a stripped list fails the predicate. -/
theorem head?_stripWhile_not {p : Char → Bool} {l : List Char} {c : Char}
    (h : (stripWhile p l).head? = some c) : p c = false := by
  unfold stripWhile at h
  rw [List.head?_reverse] at h
  obtain ⟨pre, hpre⟩ := List.dropWhile_suffix (l := (l.dropWhile p).reverse) p
  have h3 : (l.dropWhile p).reverse.getLast? = some c := by
    rw [← hpre, List.getLast?_append, h]
    rfl
  rw [List.getLast?_reverse] at h3
  have h4 := List.head?_dropWhile_not p l
  rw [h3] at h4
  simpa using h4

/-- A stripped list inherits any chain property. -/
theorem chain'_stripWhile {R : Char → Char → Prop} {p : Char → Bool}
    {l : List Char} (h : List.Chain' R l) :
    List.Chain' R (stripWhile p l) := by
  have h1 : l.dropWhile p <:+ l := List.dropWhile_suffix p
  have h2 : List.dropWhile p (l.dropWhile p).reverse <:+ (l.dropWhile p).reverse :=
    List.dropWhile_suffix p
  have h3 : stripWhile p l <+: l.dropWhile p := by
    unfold stripWhile
    have := List.reverse_prefix.mpr h2
    rwa [List.reverse_reverse] at this
  exact h.infix (h3.isInfix.trans h1.isInfix)

/-- A character of a squashed list is the replacement or an original
character that fails the predicate. -/
theorem mem_squashRuns {p : Char → Bool} {rep : Char} {l : List Char}
    {c : Char} : ∀ {b : Bool}, c ∈ squashRuns p rep b l →
    c = rep ∨ (c ∈ l ∧ p c = false) := by
  induction l with
  | nil => intro b h; simp [squashRuns] at h
  | cons a as ih =>
    intro b h
    by_cases hpa : p a
    · cases b with
      | true =>
        simp only [squashRuns, hpa, if_true] at h
        rcases ih h with h' | h'
        · exact Or.inl h'
        · exact Or.inr ⟨List.mem_cons_of_mem _ h'.1, h'.2⟩
      | false =>
        simp only [squashRuns, hpa, if_true, if_false] at h
        rcases List.mem_cons.mp h with rfl | h'
        · exact Or.inl rfl
        · rcases ih h' with h'' | h''
          · exact Or.inl h''
          · exact Or.inr ⟨List.mem_cons_of_mem _ h''.1, h''.2⟩
    · have hpa' : p a = false := by simpa using hpa
      simp only [squashRuns, hpa', Bool.false_eq_true, if_false] at h
      rcases List.mem_cons.mp h with rfl | h'
      · exact Or.inr ⟨List.mem_cons_self _ _, hpa'⟩
      · rcases ih h' with h'' | h''
        · exact Or.inl h''
        · exact Or.inr ⟨List.mem_cons_of_mem _ h''.1, h''.2⟩

/-- Squashing is the identity when no character matches. -/
theorem squashRuns_eq_self_of_all {p : Char → Bool} {rep : Char}
    {l : List Char} (h : ∀ c ∈ l, p c = false) :
    ∀ b, squashRuns p rep b l = l := by
  induction l with
  | nil => intro b; rfl
  | cons a as ih =>
    intro b
    have hpa : p a = false := h a (List.mem_cons_self _ _)
    simp only [squashRuns, hpa, Bool.false_eq_true, if_false]
    rw [ih (fun c hc => h c (List.mem_cons_of_mem _ hc)) false]

/-- With the in-run flag set, the squashed head fails the predicate. -/
theorem head?_squashRuns_true {p : Char → Bool} {rep : Char} :
    ∀ {l : List Char} {c : Char},
      (squashRuns p rep true l).head? = some c → p c = false := by
  intro l
  induction l with
  | nil => intro c h; simp [squashRuns] at h
  | cons a as ih =>
    intro c h
    by_cases hpa : p a
    · simp only [squashRuns, hpa, if_true] at h
      exact ih h
    · have hpa' : p a = false := by simpa using hpa
      simp only [squashRuns, hpa', Bool.false_eq_true, if_false,
        List.head?_cons, Option.some.injEq] at h
      rw [← h]
      exact hpa'

/-- A squashed list never has two adjacent matching characters. -/
theorem chain'_squashRuns {p : Char → Bool} {rep : Char}
    (l : List Char) : ∀ b : Bool,
    List.Chain' (fun a c => p a = false ∨ p c = false) (squashRuns p rep b l) := by
  induction l with
  | nil => intro b; simp [squashRuns]
  | cons a as ih =>
    intro b
    by_cases hpa : p a
    · cases b with
      | true => simpa only [squashRuns, hpa, if_true] using ih true
      | false =>
        simp only [squashRuns, hpa, if_true, Bool.false_eq_true, if_false]
        rw [List.chain'_cons']
        refine ⟨?_, ih true⟩
        intro y hy
        exact Or.inr (head?_squashRuns_true (Option.mem_def.mp hy))
    · have hpa' : p a = false := by simpa using hpa
      simp only [squashRuns, hpa', Bool.false_eq_true, if_false]
      rw [List.chain'_cons']
      exact ⟨fun y _ => Or.inl hpa', ih false⟩

/-- Squashing is the identity on a list whose matching characters all
equal the replacement and are never adjacent. -/
theorem squashRuns_eq_self_chain {p : Char → Bool} {rep : Char} :
    ∀ l : List Char, (∀ c ∈ l, p c = true → c = rep) →
      List.Chain' (fun a c => p a = false ∨ p c = false) l →
      squashRuns p rep false l = l ∧
      ((∀ c, l.head? = some c → p c = false) → squashRuns p rep true l = l) := by
  intro l
  induction l with
  | nil => exact fun _ _ => ⟨rfl, fun _ => rfl⟩
  | cons a as ih =>
    intro hrep hch
    obtain ⟨ih1, ih2⟩ := ih (fun c hc => hrep c (List.mem_cons_of_mem _ hc)) hch.tail
    by_cases hpa : p a
    · have ha : a = rep := hrep a (List.mem_cons_self _ _) hpa
      have hhead : ∀ c, as.head? = some c → p c = false := by
        intro c hc
        rcases (List.chain'_cons'.mp hch).1 c (Option.mem_def.mpr hc) with h | h
        · rw [hpa] at h
          cases h
        · exact h
      constructor
      · simp only [squashRuns, hpa, if_true, Bool.false_eq_true, if_false]
        rw [ih2 hhead, ← ha]
      · intro hc
        have := hc a rfl
        rw [hpa] at this
        cases this
    · have hpa' : p a = false := by simpa using hpa
      constructor
      · simp only [squashRuns, hpa', Bool.false_eq_true, if_false]
        rw [ih1]
      · intro _
        simp only [squashRuns, hpa', Bool.false_eq_true, if_false]
        rw [ih1]

/-- The slug pipeline is the identity on lists in its normal form:
lower-case-fixed kept characters, no whitespace or underscores, no
adjacent hyphens, and no hyphen at either end. -/
theorem slugChars_nf (t : List Char)
    (hmem : ∀ c ∈ t, Char.toLower c = c ∧ keepChar c = true ∧ isSpaceU c = false)
    (hch : List.Chain' (fun a c => isHyphen a = false ∨ isHyphen c = false) t)
    (hhead : ∀ c, t.head? = some c → isHyphen c = false)
    (hlast : ∀ c, t.getLast? = some c → isHyphen c = false) :
    slugChars t = t := by
  have s1 : t.map Char.toLower = t := by
    have := List.map_congr_left (l := t) (f := Char.toLower) (g := id)
      (fun c hc => (hmem c hc).1)
    simpa using this
  have s2 : stripWhile pyIsSpace t = t := by
    apply stripWhile_eq_self_of_all
    intro c hc
    have h := (hmem c hc).2.2
    unfold isSpaceU at h
    exact (Bool.or_eq_false_iff.mp h).1
  have s3 : t.filter keepChar = t :=
    List.filter_eq_self.mpr (fun c hc => (hmem c hc).2.1)
  have s4 : squashRuns isSpaceU '-' false t = t :=
    squashRuns_eq_self_of_all (fun c hc => (hmem c hc).2.2) false
  have s5 : squashRuns isHyphen '-' false t = t :=
    (squashRuns_eq_self_chain t
      (fun c _ hc => of_decide_eq_true hc) hch).1
  have s6 : stripWhile isHyphen t = t := stripWhile_eq_self_of_ends hhead hlast
  unfold slugChars
  rw [s1, s2, s3, s4, s5, s6]

/-- The slug pipeline always lands in its normal form, so applying it
twice equals applying it once. -/
theorem slugChars_fixed (l : List Char) :
    slugChars (slugChars l) = slugChars l := by
  apply slugChars_nf
  · intro c hc
    unfold slugChars at hc
    have hc4 := mem_stripWhile hc
    rcases mem_squashRuns hc4 with rfl | ⟨hc3, _⟩
    · exact ⟨by decide, by decide, by decide⟩
    · rcases mem_squashRuns hc3 with rfl | ⟨hc2, hsp⟩
      · exact ⟨by decide, by decide, by decide⟩
      · have hc2' := List.mem_filter.mp hc2
        have hc1 := mem_stripWhile hc2'.1
        obtain ⟨d, _, rfl⟩ := List.mem_map.mp hc1
        exact ⟨toLower_toLower d, hc2'.2, hsp⟩
  · exact chain'_stripWhile (chain'_squashRuns _ false)
  · intro c hc
    exact head?_stripWhile_not hc
  · intro c hc
    exact getLast?_stripWhile_not hc

/-- C9: `slugify` is idempotent — its output is already in normal form
(or is the fallback `"untitled"`, itself a fixed point). -/
theorem slugify_idempotent : ∀ x : String, slugify (slugify x) = slugify x := by
  intro x
  by_cases h : (slugChars x.data).isEmpty
  · have h1 : slugify x = "untitled" := by simp [slugify, h]
    rw [h1]
    decide
  · have h1 : slugify x = ⟨slugChars x.data⟩ := by simp [slugify, h]
    rw [h1]
    simp only [slugify]
    rw [slugChars_fixed]
    simp [h]
